import Mathlib

/-!
Verification of the progressive Monte-Carlo ray tracer (src/: vec3.rs, color.rs,
ray.rs, random.rs, hit_record.rs, sphere.rs, scene.rs, material.rs, camera.rs).

Modelling conventions, used throughout:

* `f64` values are modelled as exact rationals (`ℚ`).  The only `f64`
  operation without an exact rational counterpart is `f64::sqrt`; it is
  modelled by an explicit parameter `sqrt : ℚ → ℚ`, and each theorem states
  as a hypothesis exactly the properties of `sqrt` it needs at the arguments
  actually used.  Witnesses instantiate `sqrt` with `ratSqrt`, which is exact
  on rational perfect squares and nonnegative on nonnegative arguments.
* `u64` values are modelled as `Nat`, reduced modulo `2 ^ 64` at every
  wrapping operation (`overflowing_add`, `overflowing_mul`, `<<`,
  `rotate_left`).
* The rejection-sampling loops of `random.rs` (Lemire's bounded sampler) and
  `vec3.rs` (`random_in_unit_disk`, `random_unit_vector`) are modelled with
  explicit fuel; `none` means the fuel ran out, which has no counterpart in a
  terminating run of the source.
* The shared atomic pause flag of `camera.rs` is modelled as a function
  `pause : ℕ → Bool` giving the value the worker observes at the single
  per-row load `self.pause.load(..)`; the flag is read exactly once per row
  in the source, after the row's pixels are written.
* The flat row-major buffers of `camera.rs` are modelled at the granularity
  the code itself immediately imposes with `chunks_exact_mut`: the color
  buffer as a list of rows of `Color`, the RGBA byte buffer as a list of
  rows of 4-byte `Pixel`s.
-/

set_option maxRecDepth 100000

set_option allowUnsafeReducibility true in
attribute [semireducible] Rat.add Rat.mul Rat.inv Rat.div Rat.sub Rat.neg Rat.blt

/-- Wrap-around modulus of 64-bit unsigned arithmetic. -/
def u64Mod : Nat := 2 ^ 64

/-- Newton iteration for the integer square root, with explicit fuel
(structurally recursive so that witnesses can be checked by evaluation). -/
def natSqrtIter (n : Nat) : Nat → Nat → Nat
  | 0, guess => guess
  | f + 1, guess =>
    let next := (guess + n / guess) / 2
    if next < guess then natSqrtIter n f next else guess

/-- Floor integer square root (evaluable counterpart of `Nat.sqrt`). -/
def natSqrtFn (n : Nat) : Nat := if n ≤ 1 then n else natSqrtIter n n (n / 2)

/-- Rational square root, exact on perfect squares, nonnegative everywhere
(used by witnesses to instantiate the `sqrt` parameter of the embedding). -/
def ratSqrt (q : ℚ) : ℚ :=
  if 0 ≤ q then (natSqrtFn q.num.toNat : ℚ) / (natSqrtFn q.den : ℚ) else 0

theorem ratSqrt_nonneg (q : ℚ) : 0 ≤ ratSqrt q := by
  unfold ratSqrt
  split
  · positivity
  · exact le_refl 0

/-- splitmix64 step (`random.rs`, `splitmix64_next`): output and updated seed. -/
def splitmix64Next (x : Nat) : Nat × Nat :=
  let x' := (x + 0x9e3779b97f4a7c15) % u64Mod
  let z := x'
  let z := ((z ^^^ (z >>> 30)) * 0xbf58476d1ce4e5b9) % u64Mod
  let z := ((z ^^^ (z >>> 27)) * 0x94d049bb133111eb) % u64Mod
  (z ^^^ (z >>> 31), x')

/-- xoshiro256+ generator state (`random.rs`, `struct Rng`). -/
structure Rng where
  s0 : Nat
  s1 : Nat
  s2 : Nat
  s3 : Nat
deriving DecidableEq, Repr

/-- `Rng::new`: seed the 256-bit state by four splitmix64 steps. -/
def Rng.new (seed : Nat) : Rng :=
  let p0 := splitmix64Next seed
  let p1 := splitmix64Next p0.2
  let p2 := splitmix64Next p1.2
  let p3 := splitmix64Next p2.2
  ⟨p0.1, p1.1, p2.1, p3.1⟩

/-- `u64::rotate_left(45)` on a value below `2 ^ 64`. -/
def rotl45 (x : Nat) : Nat := ((x <<< 45) % u64Mod) ||| (x >>> 19)

/-- `Rng::xoshiro256p_next`: output and updated state. -/
def Rng.xoshiro256pNext (g : Rng) : Nat × Rng :=
  let result := (g.s0 + g.s3) % u64Mod
  let t := (g.s1 <<< 17) % u64Mod
  let s2 := g.s2 ^^^ g.s0
  let s3 := g.s3 ^^^ g.s1
  let s1 := g.s1 ^^^ s2
  let s0 := g.s0 ^^^ s3
  let s2 := s2 ^^^ t
  let s3 := rotl45 s3
  (result, ⟨s0, s1, s2, s3⟩)

/-- The `while l < t` retry loop of Lemire's bounded sampler
(`Rng::random_u64`), with explicit fuel. -/
def lemireLoop (s t : Nat) : Nat → Nat → Rng → Option (Nat × Rng)
  | 0, m, g => if m % u64Mod < t then none else some (m / u64Mod, g)
  | f + 1, m, g =>
    if m % u64Mod < t then
      let xr := g.xoshiro256pNext
      lemireLoop s t f (xr.1 * s) xr.2
    else some (m / u64Mod, g)

/-- `Rng::random_u64`: Lemire's algorithm for an unbiased sample below `s`. -/
def Rng.randomU64 (fuel : Nat) (s : Nat) (g : Rng) : Option (Nat × Rng) :=
  let xr := g.xoshiro256pNext
  let m := xr.1 * s
  let l := m % u64Mod
  if l < s then
    let t := ((u64Mod - s) % u64Mod) % s
    lemireLoop s t fuel m xr.2
  else some (m / u64Mod, xr.2)

/-- The constant `(1 << 53) - 1` of `Rng::random_f64`. -/
def f64Limit : Nat := 2 ^ 53 - 1

/-- `Rng::random_f64`: `random_u64(limit - 1) as f64 / limit as f64`. -/
def Rng.randomF64 (fuel : Nat) (g : Rng) : Option (ℚ × Rng) :=
  (g.randomU64 fuel (f64Limit - 1)).map fun ur => ((ur.1 : ℚ) / (f64Limit : ℚ), ur.2)

/-- `Rng::random_f64_range`: `min + (max - min) * random_f64()`. -/
def Rng.randomF64Range (fuel : Nat) (lo hi : ℚ) (g : Rng) : Option (ℚ × Rng) :=
  (g.randomF64 fuel).map fun qr => (lo + (hi - lo) * qr.1, qr.2)

theorem xoshiro256pNext_fst_lt (g : Rng) : g.xoshiro256pNext.1 < u64Mod := by
  have : 0 < u64Mod := by norm_num [u64Mod]
  exact Nat.mod_lt _ this

theorem lemireLoop_lt {s t : Nat} (hs : 0 < s) :
    ∀ (fuel m : Nat) (g : Rng), (∃ x, x < u64Mod ∧ m = x * s) →
      ∀ u g', lemireLoop s t fuel m g = some (u, g') → u < s := by
  intro fuel
  induction fuel with
  | zero =>
    intro m g hm u g' h
    rw [lemireLoop] at h
    split at h
    · exact absurd h (by simp)
    · obtain ⟨x, hx, rfl⟩ := hm
      simp only [Option.some.injEq, Prod.mk.injEq] at h
      obtain ⟨h1, -⟩ := h
      subst h1
      have hlt : x * s < s * u64Mod := by
        rw [mul_comm s u64Mod]
        exact Nat.mul_lt_mul_of_lt_of_le hx (le_refl s) hs
      exact (Nat.div_lt_iff_lt_mul (by norm_num [u64Mod])).2 hlt
  | succ f ih =>
    intro m g hm u g' h
    rw [lemireLoop] at h
    split at h
    · exact ih _ _ ⟨_, xoshiro256pNext_fst_lt g, rfl⟩ u g' h
    · obtain ⟨x, hx, rfl⟩ := hm
      simp only [Option.some.injEq, Prod.mk.injEq] at h
      obtain ⟨h1, -⟩ := h
      subst h1
      have hlt : x * s < s * u64Mod := by
        rw [mul_comm s u64Mod]
        exact Nat.mul_lt_mul_of_lt_of_le hx (le_refl s) hs
      exact (Nat.div_lt_iff_lt_mul (by norm_num [u64Mod])).2 hlt

theorem randomU64_lt {fuel s : Nat} {g : Rng} (hs : 0 < s) :
    ∀ u g', g.randomU64 fuel s = some (u, g') → u < s := by
  intro u g' h
  rw [Rng.randomU64] at h
  split at h
  · exact lemireLoop_lt hs fuel _ _ ⟨_, xoshiro256pNext_fst_lt g, rfl⟩ u g' h
  · simp only [Option.some.injEq, Prod.mk.injEq] at h
    obtain ⟨h1, -⟩ := h
    subst h1
    have hlt : g.xoshiro256pNext.1 * s < s * u64Mod := by
      rw [mul_comm s u64Mod]
      exact Nat.mul_lt_mul_of_lt_of_le (xoshiro256pNext_fst_lt g) (le_refl s) hs
    exact (Nat.div_lt_iff_lt_mul (by norm_num [u64Mod])).2 hlt

/-- C9: for every generator state, `Rng::random_u64(s)` (Lemire's bounded
sampler) returns an integer strictly below `s`, and `Rng::random_f64`
(the spec's `uniform_f64`) returns a rational in the half-open interval
`[0, 1)`: the division by `2 ^ 53 - 1` can produce neither a value below `0`
nor a value that reaches `1`. -/
theorem randomF64_mem_Ico (g : Rng) (fuel : Nat) :
    (∀ s u g', 0 < s → g.randomU64 fuel s = some (u, g') → u < s) ∧
    (∀ q g', g.randomF64 fuel = some (q, g') → 0 ≤ q ∧ q < 1) := by
  constructor
  · intro s u g' hs h
    exact randomU64_lt hs u g' h
  · intro q g' h
    rw [Rng.randomF64] at h
    match hu : g.randomU64 fuel (f64Limit - 1) with
    | none => rw [hu] at h; exact absurd h (by simp)
    | some (u, g'') =>
      rw [hu] at h
      simp only [Option.map, Option.some.injEq, Prod.mk.injEq] at h
      obtain ⟨h1, -⟩ := h
      subst h1
      have hult : u < f64Limit - 1 :=
        randomU64_lt (by norm_num [f64Limit]) u g'' hu
      constructor
      · positivity
      · rw [div_lt_one (by norm_num [f64Limit])]
        have : (u : ℚ) < ((f64Limit - 1 : Nat) : ℚ) := by exact_mod_cast hult
        have hle : ((f64Limit - 1 : Nat) : ℚ) ≤ (f64Limit : ℚ) := by
          norm_num [f64Limit]
        linarith

/-- Concrete output of `Rng::random_u64` used by the C9 witness. -/
def c9uPair : Nat × Rng := ((Rng.new 0).randomU64 1 5).getD (0, Rng.new 0)

/-- Concrete output of `Rng::random_f64` used by the C9 witness. -/
def c9qPair : ℚ × Rng := ((Rng.new 0).randomF64 1).getD (0, Rng.new 0)

theorem randomF64_mem_Ico_witness :
    ((0 : Nat) < 5 ∧ (Rng.new 0).randomU64 1 5 = some (c9uPair.1, c9uPair.2) ∧
      c9uPair.1 < 5) ∧
    ((Rng.new 0).randomF64 1 = some (c9qPair.1, c9qPair.2) ∧
      0 ≤ c9qPair.1 ∧ c9qPair.1 < 1) :=
  ⟨⟨by norm_num, rfl,
    (randomF64_mem_Ico (Rng.new 0) 1).1 5 c9uPair.1 c9uPair.2 (by norm_num) rfl⟩,
   ⟨rfl, ((randomF64_mem_Ico (Rng.new 0) 1).2 c9qPair.1 c9qPair.2 rfl).1,
    ((randomF64_mem_Ico (Rng.new 0) 1).2 c9qPair.1 c9qPair.2 rfl).2⟩⟩

/-- `vec3.rs`: a 3-vector of (modelled) `f64` components. -/
structure Vec3 where
  x : ℚ
  y : ℚ
  z : ℚ
deriving DecidableEq, Repr

instance : Add Vec3 := ⟨fun a b => ⟨a.x + b.x, a.y + b.y, a.z + b.z⟩⟩

instance : Sub Vec3 := ⟨fun a b => ⟨a.x - b.x, a.y - b.y, a.z - b.z⟩⟩

instance : Neg Vec3 := ⟨fun a => ⟨-a.x, -a.y, -a.z⟩⟩

/-- `impl Mul<Vec3> for f64`: scalar multiplication. -/
instance : SMul ℚ Vec3 := ⟨fun q a => ⟨q * a.x, q * a.y, q * a.z⟩⟩

/-- `impl Mul for Vec3`: component-wise multiplication. -/
instance : Mul Vec3 := ⟨fun a b => ⟨a.x * b.x, a.y * b.y, a.z * b.z⟩⟩

/-- `impl Div<f64> for Vec3`: component-wise division by a scalar. -/
instance : HDiv Vec3 ℚ Vec3 := ⟨fun a q => ⟨a.x / q, a.y / q, a.z / q⟩⟩

/-- `Vec3::dot`. -/
def Vec3.dot (a b : Vec3) : ℚ := a.x * b.x + a.y * b.y + a.z * b.z

/-- `Vec3::cross`. -/
def Vec3.cross (a b : Vec3) : Vec3 :=
  ⟨a.y * b.z - a.z * b.y, a.z * b.x - a.x * b.z, a.x * b.y - a.y * b.x⟩

/-- `Vec3::length_squared`. -/
def Vec3.lengthSquared (a : Vec3) : ℚ := a.x * a.x + a.y * a.y + a.z * a.z

/-- `Vec3::near_zero`: all components below `1e-8` in absolute value. -/
def Vec3.nearZero (a : Vec3) : Bool :=
  decide (|a.x| < 1 / 100000000) && decide (|a.y| < 1 / 100000000) &&
    decide (|a.z| < 1 / 100000000)

/-- `Vec3::unit`: `self / self.length()`, with `length = sqrt(length_squared)`. -/
def Vec3.unit (sqrt : ℚ → ℚ) (a : Vec3) : Vec3 := a / sqrt a.lengthSquared

/-- `Vec3::reflect`. -/
def Vec3.reflect (v n : Vec3) : Vec3 := v - (2 * v.dot n) • n

/-- `Vec3::refract`. -/
def Vec3.refract (sqrt : ℚ → ℚ) (v n : Vec3) (etaiOverEtat : ℚ) : Vec3 :=
  let cosTheta := min ((-v).dot n) 1
  let rOutPerp := etaiOverEtat • (v + cosTheta • n)
  let rOutParallel := (-(sqrt |1 - rOutPerp.lengthSquared|)) • n
  rOutPerp + rOutParallel

/-- `Vec3::random_range`: three consecutive `random_f64_range` draws. -/
def Vec3.randomRange (fuel : Nat) (lo hi : ℚ) (g : Rng) : Option (Vec3 × Rng) :=
  match g.randomF64Range fuel lo hi with
  | none => none
  | some (a, g1) =>
    match g1.randomF64Range fuel lo hi with
    | none => none
    | some (b, g2) =>
      match g2.randomF64Range fuel lo hi with
      | none => none
      | some (c, g3) => some (⟨a, b, c⟩, g3)

/-- `Vec3::random_in_unit_disk`: rejection sampling with explicit fuel. -/
def Vec3.randomInUnitDisk (fuel : Nat) (g : Rng) : Option (Vec3 × Rng) :=
  match fuel with
  | 0 => none
  | f + 1 =>
    match g.randomF64Range f (-1) 1 with
    | none => none
    | some (a, g1) =>
      match g1.randomF64Range f (-1) 1 with
      | none => none
      | some (b, g2) =>
        let p : Vec3 := ⟨a, b, 0⟩
        if p.lengthSquared < 1 then some (p, g2) else Vec3.randomInUnitDisk f g2

/-- `Vec3::random_unit_vector`: rejection sampling with explicit fuel; a kept
sample `p` is returned as `p / sqrt(length_squared p)`. -/
def Vec3.randomUnitVector (sqrt : ℚ → ℚ) (fuel : Nat) (g : Rng) : Option (Vec3 × Rng) :=
  match fuel with
  | 0 => none
  | f + 1 =>
    match Vec3.randomRange f (-1) 1 g with
    | none => none
    | some (p, g1) =>
      let lensq := p.lengthSquared
      if 1 / 10 ^ 160 < lensq then some (p / sqrt lensq, g1)
      else Vec3.randomUnitVector sqrt f g1

/-- `color.rs`: an RGB color of (modelled) `f64` components. -/
structure Color where
  r : ℚ
  g : ℚ
  b : ℚ
deriving DecidableEq, Repr

instance : Add Color := ⟨fun a b => ⟨a.r + b.r, a.g + b.g, a.b + b.b⟩⟩

/-- `impl Mul<Color> for f64`: scalar multiplication. -/
instance : SMul ℚ Color := ⟨fun q a => ⟨q * a.r, q * a.g, q * a.b⟩⟩

/-- Attenuation product used by `View::ray_color`
(component-wise, the `Mul` of the wrapped `Vec3`). -/
instance : Mul Color := ⟨fun a b => ⟨a.r * b.r, a.g * b.g, a.b * b.b⟩⟩

/-- `ray.rs`: origin plus direction. -/
structure Ray where
  pos : Vec3
  dir : Vec3
deriving DecidableEq, Repr

/-- `Ray::at`: `pos + t * dir`. -/
def Ray.at (r : Ray) (t : ℚ) : Vec3 := r.pos + t • r.dir

/-- `material.rs`: the closed set of material variants
(the source spells the third variant `Dieletric`). -/
inductive Material where
  | lambertian (albedo : Color)
  | metal (albedo : Color) (fuzz : ℚ)
  | dieletric (refractionIndex : ℚ)
deriving DecidableEq, Repr

/-- `hit_record.rs`: transient result of an intersection query. -/
structure HitRecord where
  p : Vec3
  normal : Vec3
  mat : Material
  t : ℚ
  frontFace : Bool
deriving DecidableEq, Repr

/-- `HitRecord::new`: orients the stored normal against the incoming ray.
The parameter `outwardNormal` is assumed by the source to have unit length. -/
def HitRecord.new (r : Ray) (t : ℚ) (outwardNormal : Vec3) (mat : Material) : HitRecord :=
  let frontFace := decide (r.dir.dot outwardNormal < 0)
  { p := r.at t
    normal := if frontFace then outwardNormal else -outwardNormal
    mat := mat
    t := t
    frontFace := frontFace }

/-- `material.rs`: transient output of a scatter. -/
structure ScatterRecord where
  attenuation : Color
  scattered : Ray
deriving DecidableEq, Repr

/-- `material.rs`, `fn reflectance`: Schlick's approximation. -/
def reflectance (cosine refractionIndex : ℚ) : ℚ :=
  let r0 := (1 - refractionIndex) / (1 + refractionIndex)
  let r0 := r0 * r0
  r0 + (1 - r0) * (1 - cosine) ^ 5

/-- `Material::scatter`.  The outer `Option` is fuel exhaustion of the
sampling loops; the inner `Option ScatterRecord` is the source's return value
(`None` = ray absorbed).  In the `Dieletric` arm the `||` of the source
short-circuits, so no random number is drawn when refraction is impossible. -/
def Material.scatter (sqrt : ℚ → ℚ) (fuel : Nat) (m : Material) (g : Rng)
    (rIn : Ray) (rec : HitRecord) : Option (Option ScatterRecord × Rng) :=
  match m with
  | .lambertian albedo =>
    match Vec3.randomUnitVector sqrt fuel g with
    | none => none
    | some (v, g1) =>
      let scatterDirection := rec.normal + v
      let scatterDirection :=
        if scatterDirection.nearZero then rec.normal else scatterDirection
      some (some ⟨albedo, ⟨rec.p, scatterDirection⟩⟩, g1)
  | .metal albedo fuzz =>
    match Vec3.randomUnitVector sqrt fuel g with
    | none => none
    | some (v, g1) =>
      let reflected := rIn.dir.reflect rec.normal
      let reflected := (reflected.unit sqrt) + fuzz • v
      if 0 < reflected.dot rec.normal then
        some (some ⟨albedo, ⟨rec.p, reflected⟩⟩, g1)
      else some (none, g1)
  | .dieletric refractionIndex =>
    let ri := if rec.frontFace then 1 / refractionIndex else refractionIndex
    let unitDirection := rIn.dir.unit sqrt
    let cosTheta := min ((-unitDirection).dot rec.normal) 1
    let sinTheta := sqrt (1 - cosTheta * cosTheta)
    let cannotRefract := decide (1 < ri * sinTheta)
    if cannotRefract then
      some (some ⟨⟨1, 1, 1⟩, ⟨rec.p, unitDirection.reflect rec.normal⟩⟩, g)
    else
      match g.randomF64 fuel with
      | none => none
      | some (q, g1) =>
        let direction :=
          if q < reflectance cosTheta ri then unitDirection.reflect rec.normal
          else unitDirection.refract sqrt rec.normal ri
        some (some ⟨⟨1, 1, 1⟩, ⟨rec.p, direction⟩⟩, g1)

theorem vec3_dot_neg (a b : Vec3) : a.dot (-b) = -(a.dot b) := by
  show a.dot ⟨-b.x, -b.y, -b.z⟩ = -(a.dot b)
  simp only [Vec3.dot]
  ring

/-- C6: every `HitRecord` built by `HitRecord::new` (the sole constructor used
by intersection queries) has `front_face` true exactly when the ray direction
and the outward normal are antiparallel (`dot(ray.dir, outward_normal) < 0`),
stores the outward normal when `front_face` holds and its negation otherwise,
and therefore always satisfies `dot(ray.dir, normal) ≤ 0`. -/
theorem hitRecord_normal_opposes_ray (r : Ray) (t : ℚ) (outwardNormal : Vec3)
    (mat : Material) :
    ((HitRecord.new r t outwardNormal mat).frontFace = true ↔
       r.dir.dot outwardNormal < 0) ∧
    ((HitRecord.new r t outwardNormal mat).normal =
       if r.dir.dot outwardNormal < 0 then outwardNormal else -outwardNormal) ∧
    r.dir.dot (HitRecord.new r t outwardNormal mat).normal ≤ 0 := by
  by_cases h : r.dir.dot outwardNormal < 0
  · refine ⟨by simp [HitRecord.new, h], by simp [HitRecord.new, h], ?_⟩
    have hn : (HitRecord.new r t outwardNormal mat).normal = outwardNormal := by
      simp [HitRecord.new, h]
    rw [hn]
    exact le_of_lt h
  · refine ⟨by simp [HitRecord.new, h], by simp [HitRecord.new, h], ?_⟩
    have hn : (HitRecord.new r t outwardNormal mat).normal = -outwardNormal := by
      simp [HitRecord.new, h]
    rw [hn, vec3_dot_neg]
    simp only [neg_nonpos]
    exact le_of_not_lt h

/-- C8: the `Lambertian` arm of `Material::scatter` never absorbs the ray:
whenever the sampling succeeds it returns `Some`, with attenuation exactly the
material's albedo and scatter origin the hit point; the scattered direction is
`normal + random_unit_vector`, falling back to the surface normal itself
exactly when that sum is numerically degenerate (`near_zero`). -/
theorem lambertian_scatter_spec (sqrt : ℚ → ℚ) (fuel : Nat) (albedo : Color)
    (g : Rng) (rIn : Ray) (rec : HitRecord) (out : Option ScatterRecord)
    (g' : Rng)
    (h : Material.scatter sqrt fuel (.lambertian albedo) g rIn rec =
      some (out, g')) :
    ∃ sc, out = some sc ∧ sc.attenuation = albedo ∧ sc.scattered.pos = rec.p ∧
      ∃ v g1, Vec3.randomUnitVector sqrt fuel g = some (v, g1) ∧ g' = g1 ∧
        (((rec.normal + v).nearZero = true ∧ sc.scattered.dir = rec.normal) ∨
         ((rec.normal + v).nearZero = false ∧
           sc.scattered.dir = rec.normal + v)) := by
  rw [Material.scatter] at h
  match hv : Vec3.randomUnitVector sqrt fuel g with
  | none => rw [hv] at h; exact absurd h (by simp)
  | some (v, g1) =>
    rw [hv] at h
    simp only [Option.some.injEq, Prod.mk.injEq] at h
    obtain ⟨h1, h2⟩ := h
    by_cases hz : (rec.normal + v).nearZero
    · refine ⟨⟨albedo, ⟨rec.p, rec.normal⟩⟩, ?_, rfl, rfl, v, g1, rfl, h2.symm, ?_⟩
      · rw [← h1]; simp [hz]
      · exact Or.inl ⟨hz, rfl⟩
    · refine ⟨⟨albedo, ⟨rec.p, rec.normal + v⟩⟩, ?_, rfl, rfl, v, g1, rfl, h2.symm, ?_⟩
      · rw [← h1]; simp [hz]
      · exact Or.inr ⟨by simp [hz], rfl⟩

/-- Concrete hit record used by the C8 witness. -/
def c8rec : HitRecord :=
  { p := ⟨0, 0, 0⟩, normal := ⟨0, 0, 1⟩, mat := .lambertian ⟨1/2, 1/2, 1/2⟩,
    t := 1, frontFace := true }

/-- Concrete ray used by the C8 witness. -/
def c8ray : Ray := ⟨⟨0, 0, 0⟩, ⟨0, 0, -1⟩⟩

/-- Concrete scatter output used by the C8 witness. -/
def c8out : Option ScatterRecord × Rng :=
  (Material.scatter ratSqrt 1 (.lambertian ⟨1/2, 1/2, 1/2⟩) (Rng.new 7)
    c8ray c8rec).getD (none, Rng.new 7)

theorem lambertian_scatter_spec_witness :
    Material.scatter ratSqrt 1 (.lambertian ⟨1/2, 1/2, 1/2⟩) (Rng.new 7)
        c8ray c8rec = some (c8out.1, c8out.2) ∧
    ∃ sc, c8out.1 = some sc ∧ sc.attenuation = ⟨1/2, 1/2, 1/2⟩ ∧
      sc.scattered.pos = c8rec.p ∧
      ∃ v g1, Vec3.randomUnitVector ratSqrt 1 (Rng.new 7) = some (v, g1) ∧
        c8out.2 = g1 ∧
        (((c8rec.normal + v).nearZero = true ∧ sc.scattered.dir = c8rec.normal) ∨
         ((c8rec.normal + v).nearZero = false ∧
           sc.scattered.dir = c8rec.normal + v)) :=
  have h : Material.scatter ratSqrt 1 (.lambertian ⟨1/2, 1/2, 1/2⟩) (Rng.new 7)
      c8ray c8rec = some (c8out.1, c8out.2) := by decide
  ⟨h, lambertian_scatter_spec ratSqrt 1 ⟨1/2, 1/2, 1/2⟩ (Rng.new 7) c8ray c8rec
    c8out.1 c8out.2 h⟩

/-- `sphere.rs`: geometry plus material handle. -/
structure Sphere where
  center : Vec3
  radius : ℚ
  mat : Material
deriving DecidableEq, Repr

/-- The quadratic coefficient `a = dir.length_squared()` of `Sphere::hit`. -/
def aOf (r : Ray) : ℚ := r.dir.lengthSquared

/-- The half-coefficient `h = dir.dot(center - pos)` of `Sphere::hit`. -/
def hOf (s : Sphere) (r : Ray) : ℚ := r.dir.dot (s.center - r.pos)

/-- The constant `c = oc.length_squared() - radius * radius` of `Sphere::hit`. -/
def cOf (s : Sphere) (r : Ray) : ℚ :=
  (s.center - r.pos).lengthSquared - s.radius * s.radius

/-- The reduced discriminant `h * h - a * c` of `Sphere::hit`. -/
def discOf (s : Sphere) (r : Ray) : ℚ := hOf s r * hOf s r - aOf r * cOf s r

/-- The smaller quadratic root `(h - sqrtd) / a`. -/
def root1 (sqrt : ℚ → ℚ) (s : Sphere) (r : Ray) : ℚ :=
  (hOf s r - sqrt (discOf s r)) / aOf r

/-- The larger quadratic root `(h + sqrtd) / a`. -/
def root2 (sqrt : ℚ → ℚ) (s : Sphere) (r : Ray) : ℚ :=
  (hOf s r + sqrt (discOf s r)) / aOf r

/-- The hit record `Sphere::hit` builds for a root `t`:
`HitRecord::new(r, t, (r.at(t) - center) / radius, mat)`. -/
def mkRec (s : Sphere) (r : Ray) (t : ℚ) : HitRecord :=
  HitRecord.new r t ((r.at t - s.center) / s.radius) s.mat

/-- `Sphere::hit`.  The upper bound lives in `WithTop ℚ` so that the
`f64::INFINITY` passed by `View::ray_color` is represented exactly; the
source's rejection test `root <= ray_tmin || root >= ray_tmax` is kept
verbatim. -/
def Sphere.hit (sqrt : ℚ → ℚ) (s : Sphere) (r : Ray) (rayTmin : ℚ)
    (rayTmax : WithTop ℚ) : Option HitRecord :=
  if discOf s r < 0 then none
  else
    let root := root1 sqrt s r
    if root ≤ rayTmin ∨ rayTmax ≤ (root : WithTop ℚ) then
      let root := root2 sqrt s r
      if root ≤ rayTmin ∨ rayTmax ≤ (root : WithTop ℚ) then none
      else some (mkRec s r root)
    else some (mkRec s r root)

/-- `scene.rs`: ordered collection of spheres. -/
structure Scene where
  spheres : List Sphere
deriving DecidableEq, Repr

/-- The loop of `Scene::hit`: scan the remaining spheres, shrinking the upper
bound `closest_so_far` to the running closest `t`. -/
def sceneHitGo (sqrt : ℚ → ℚ) (r : Ray) (rayTmin : ℚ) :
    List Sphere → WithTop ℚ → Option HitRecord → Option HitRecord
  | [], _, acc => acc
  | s :: rest, closest, acc =>
    match s.hit sqrt r rayTmin closest with
    | some rec => sceneHitGo sqrt r rayTmin rest (rec.t : WithTop ℚ) (some rec)
    | none => sceneHitGo sqrt r rayTmin rest closest acc

/-- `Scene::hit`: nearest valid hit over all spheres. -/
def Scene.hit (sqrt : ℚ → ℚ) (sc : Scene) (r : Ray) (rayTmin : ℚ)
    (rayTmax : WithTop ℚ) : Option HitRecord :=
  sceneHitGo sqrt r rayTmin sc.spheres rayTmax none

/-- Spec-side candidate parameter (§4.2 of the spec, quoted by C1): the
smaller quadratic root if it lies strictly inside `(tMin, tMax)`, otherwise
the larger root if it does, otherwise nothing; a negative discriminant yields
nothing. -/
def candT (sqrt : ℚ → ℚ) (s : Sphere) (r : Ray) (rayTmin : ℚ)
    (rayTmax : WithTop ℚ) : Option ℚ :=
  if discOf s r < 0 then none
  else if rayTmin < root1 sqrt s r ∧ ((root1 sqrt s r : ℚ) : WithTop ℚ) < rayTmax then
    some (root1 sqrt s r)
  else if rayTmin < root2 sqrt s r ∧ ((root2 sqrt s r : ℚ) : WithTop ℚ) < rayTmax then
    some (root2 sqrt s r)
  else none

theorem reject_iff (rayTmin root : ℚ) (rayTmax : WithTop ℚ) :
    (root ≤ rayTmin ∨ rayTmax ≤ (root : WithTop ℚ)) ↔
      ¬(rayTmin < root ∧ (root : WithTop ℚ) < rayTmax) := by
  rw [not_and_or, not_lt, not_lt]

theorem sphereHit_eq_cand (sqrt : ℚ → ℚ) (s : Sphere) (r : Ray) (rayTmin : ℚ)
    (rayTmax : WithTop ℚ) :
    Sphere.hit sqrt s r rayTmin rayTmax =
      (candT sqrt s r rayTmin rayTmax).map (mkRec s r) := by
  unfold Sphere.hit candT
  by_cases hd : discOf s r < 0
  · simp [hd]
  · by_cases h1 : rayTmin < root1 sqrt s r ∧ (root1 sqrt s r : WithTop ℚ) < rayTmax
    · simp [hd, reject_iff, h1]
    · by_cases h2 : rayTmin < root2 sqrt s r ∧ (root2 sqrt s r : WithTop ℚ) < rayTmax
      · simp [hd, reject_iff, h1, h2]
      · simp [hd, reject_iff, h1, h2]

theorem candT_bounds {sqrt : ℚ → ℚ} {s : Sphere} {r : Ray} {rayTmin : ℚ}
    {rayTmax : WithTop ℚ} {t : ℚ}
    (h : candT sqrt s r rayTmin rayTmax = some t) :
    rayTmin < t ∧ (t : WithTop ℚ) < rayTmax := by
  unfold candT at h
  split_ifs at h with hd h1 h2
  all_goals simp at h
  all_goals subst h
  all_goals assumption

theorem root1_le_root2 {sqrt : ℚ → ℚ} {s : Sphere} {r : Ray} (ha : 0 < aOf r)
    (hs : 0 ≤ sqrt (discOf s r)) : root1 sqrt s r ≤ root2 sqrt s r := by
  unfold root1 root2
  rw [div_le_div_iff_of_pos_right ha]
  linarith

theorem candT_mono {sqrt : ℚ → ℚ} {s : Sphere} {r : Ray} {rayTmin : ℚ}
    (ha : 0 < aOf r) (hs : 0 ≤ discOf s r → 0 ≤ sqrt (discOf s r))
    {T T' : WithTop ℚ} (hT : T' ≤ T) :
    candT sqrt s r rayTmin T' =
      (candT sqrt s r rayTmin T).bind
        (fun t => if (t : WithTop ℚ) < T' then some t else none) := by
  unfold candT
  by_cases hd : discOf s r < 0
  · simp [hd]
  · have h12 : root1 sqrt s r ≤ root2 sqrt s r :=
      root1_le_root2 ha (hs (not_lt.mp hd))
    by_cases h1 : rayTmin < root1 sqrt s r ∧ (root1 sqrt s r : WithTop ℚ) < T
    · by_cases h1' : (root1 sqrt s r : WithTop ℚ) < T'
      · simp [hd, h1, h1', h1.1]
      · have h2' : ¬((root2 sqrt s r : WithTop ℚ) < T') := by
          intro hlt
          exact h1' (lt_of_le_of_lt (WithTop.coe_le_coe.mpr h12) hlt)
        simp [hd, h1, h1', h2']
    · have h1'' : ¬(rayTmin < root1 sqrt s r ∧ (root1 sqrt s r : WithTop ℚ) < T') := by
        rintro ⟨hta, htb⟩
        rcases not_and_or.mp h1 with hc | hc
        · exact hc hta
        · exact hc (lt_of_lt_of_le htb hT)
      by_cases h2 : rayTmin < root2 sqrt s r ∧ (root2 sqrt s r : WithTop ℚ) < T
      · by_cases h2' : (root2 sqrt s r : WithTop ℚ) < T'
        · simp [hd, h1, h1'', h2, h2', h2.1]
        · simp [hd, h1, h1'', h2, h2']
      · have h2'' : ¬(rayTmin < root2 sqrt s r ∧ (root2 sqrt s r : WithTop ℚ) < T') := by
          rintro ⟨hta, htb⟩
          rcases not_and_or.mp h2 with hc | hc
          · exact hc hta
          · exact hc (lt_of_lt_of_le htb hT)
        simp [hd, h1, h1'', h2, h2'']

@[simp] theorem mkRec_t (s : Sphere) (r : Ray) (t : ℚ) : (mkRec s r t).t = t := rfl

theorem bind_filter_eq_some {T' : WithTop ℚ} {o : Option ℚ} {t : ℚ}
    (h : (o.bind fun u => if (u : WithTop ℚ) < T' then some u else none) = some t) :
    o = some t ∧ (t : WithTop ℚ) < T' := by
  match o with
  | none => exact absurd h (by simp)
  | some u =>
    by_cases hu : (u : WithTop ℚ) < T'
    · simp only [Option.some_bind, if_pos hu, Option.some.injEq] at h
      subst h
      exact ⟨rfl, hu⟩
    · simp [hu] at h

theorem sceneHitGo_spec (sqrt : ℚ → ℚ) (r : Ray) (rayTmin : ℚ) (ha : 0 < aOf r) :
    ∀ rest : List Sphere, (∀ s ∈ rest, 0 ≤ discOf s r → 0 ≤ sqrt (discOf s r)) →
    ∀ (closest : WithTop ℚ) (acc : Option HitRecord),
      (sceneHitGo sqrt r rayTmin rest closest acc = none ↔
        acc = none ∧ ∀ s ∈ rest, candT sqrt s r rayTmin closest = none) ∧
      (∀ rec, sceneHitGo sqrt r rayTmin rest closest acc = some rec →
        ((∃ s ∈ rest, candT sqrt s r rayTmin closest = some rec.t ∧
            rec = mkRec s r rec.t ∧ (rec.t : WithTop ℚ) < closest) ∨
          (acc = some rec ∧ ∀ s ∈ rest, candT sqrt s r rayTmin closest = none)) ∧
        (∀ s ∈ rest, ∀ u, candT sqrt s r rayTmin closest = some u → rec.t ≤ u)) := by
  intro rest
  induction rest with
  | nil =>
    intro _ closest acc
    constructor
    · simp [sceneHitGo]
    · intro rec h
      simp only [sceneHitGo] at h
      exact ⟨Or.inr ⟨h, by simp⟩, by simp⟩
  | cons s rest ih =>
    intro hs closest acc
    have hs_rest : ∀ s' ∈ rest, 0 ≤ discOf s' r → 0 ≤ sqrt (discOf s' r) :=
      fun s' hm => hs s' (List.mem_cons_of_mem _ hm)
    cases hc : candT sqrt s r rayTmin closest with
    | some t0 =>
      have hstep : sceneHitGo sqrt r rayTmin (s :: rest) closest acc
          = sceneHitGo sqrt r rayTmin rest (t0 : WithTop ℚ) (some (mkRec s r t0)) := by
        simp [sceneHitGo, sphereHit_eq_cand, hc]
      obtain ⟨hb1, hb2⟩ := candT_bounds hc
      have hT : (t0 : WithTop ℚ) ≤ closest := le_of_lt hb2
      obtain ⟨ihnone, ihsome⟩ := ih hs_rest (t0 : WithTop ℚ) (some (mkRec s r t0))
      constructor
      · rw [hstep]
        constructor
        · intro hnone
          obtain ⟨hacc, -⟩ := ihnone.mp hnone
          exact absurd hacc (by simp)
        · rintro ⟨-, hall⟩
          exact absurd (hall s (by simp)) (by simp [hc])
      · intro rec h
        rw [hstep] at h
        obtain ⟨hdisj, hmin⟩ := ihsome rec h
        have hkey : rec.t ≤ t0 ∧
            ∃ s' ∈ s :: rest, candT sqrt s' r rayTmin closest = some rec.t ∧
              rec = mkRec s' r rec.t ∧ (rec.t : WithTop ℚ) < closest := by
          cases hdisj with
          | inl hA =>
            obtain ⟨s', hs'mem, hcand', hrec', hlt'⟩ := hA
            have hmono := @candT_mono sqrt s' r rayTmin ha (hs_rest s' hs'mem)
              closest (t0 : WithTop ℚ) hT
            rw [hmono] at hcand'
            obtain ⟨hcand'', -⟩ := bind_filter_eq_some hcand'
            exact ⟨le_of_lt (WithTop.coe_lt_coe.mp hlt'),
              s', List.mem_cons_of_mem _ hs'mem, hcand'', hrec',
              lt_trans hlt' hb2⟩
          | inr hB =>
            obtain ⟨hacc, -⟩ := hB
            have hrec : rec = mkRec s r t0 := (Option.some.inj hacc).symm
            have hrt : rec.t = t0 := by rw [hrec, mkRec_t]
            refine ⟨le_of_eq hrt, s, by simp, ?_, ?_, ?_⟩
            · rw [hrt]; exact hc
            · rw [hrt]; exact hrec
            · rw [hrt]; exact hb2
        refine ⟨Or.inl hkey.2, ?_⟩
        intro s' hmem u hu
        rcases List.mem_cons.mp hmem with rfl | hmem'
        · rw [hc] at hu
          have : t0 = u := Option.some.inj hu
          rw [← this]
          exact hkey.1
        · by_cases hu' : (u : WithTop ℚ) < t0
          · refine hmin s' hmem' u ?_
            rw [candT_mono ha (hs_rest s' hmem') hT, hu]
            simp only [Option.some_bind, if_pos hu']
          · have h1 : t0 ≤ u := WithTop.coe_le_coe.mp (not_lt.mp hu')
            exact le_trans hkey.1 h1
    | none =>
      have hstep : sceneHitGo sqrt r rayTmin (s :: rest) closest acc
          = sceneHitGo sqrt r rayTmin rest closest acc := by
        simp [sceneHitGo, sphereHit_eq_cand, hc]
      obtain ⟨ihnone, ihsome⟩ := ih hs_rest closest acc
      constructor
      · rw [hstep, ihnone]
        constructor
        · rintro ⟨hacc, hall⟩
          refine ⟨hacc, fun s' hmem => ?_⟩
          rcases List.mem_cons.mp hmem with rfl | hmem'
          · exact hc
          · exact hall s' hmem'
        · rintro ⟨hacc, hall⟩
          exact ⟨hacc, fun s' hmem => hall s' (List.mem_cons_of_mem _ hmem)⟩
      · intro rec h
        rw [hstep] at h
        obtain ⟨hdisj, hmin⟩ := ihsome rec h
        constructor
        · cases hdisj with
          | inl hA =>
            obtain ⟨s', hs'mem, h1, h2, h3⟩ := hA
            exact Or.inl ⟨s', List.mem_cons_of_mem _ hs'mem, h1, h2, h3⟩
          | inr hB =>
            refine Or.inr ⟨hB.1, fun s' hmem => ?_⟩
            rcases List.mem_cons.mp hmem with rfl | hmem'
            · exact hc
            · exact hB.2 s' hmem'
        · intro s' hmem u hu
          rcases List.mem_cons.mp hmem with rfl | hmem'
          · rw [hc] at hu
            exact absurd hu (by simp)
          · exact hmin s' hmem' u hu

/-- C1: for every ray with a nonzero direction and bounds `tMin < tMax`,
`Scene::hit` returns `none` exactly when no sphere has a valid intersection
parameter strictly inside `(tMin, tMax)`, and otherwise returns the hit
record built (by `HitRecord::new`) from the sphere intersection with the
smallest such parameter `t`; per sphere, `Sphere::hit` tries the smaller
quadratic root first, uses the larger root only when the smaller is out of
range, and a negative discriminant yields no hit (the per-sphere behaviour is
exactly `candT`, the candidate drawn from the spec's wording). -/
theorem scene_hit_nearest (sqrt : ℚ → ℚ) (sc : Scene) (r : Ray) (rayTmin : ℚ)
    (rayTmax : WithTop ℚ) (ha : 0 < aOf r)
    (_htb : (rayTmin : WithTop ℚ) < rayTmax)
    (hs : ∀ s ∈ sc.spheres, 0 ≤ discOf s r → 0 ≤ sqrt (discOf s r)) :
    (Scene.hit sqrt sc r rayTmin rayTmax = none ↔
      ∀ s ∈ sc.spheres, candT sqrt s r rayTmin rayTmax = none) ∧
    (∀ rec, Scene.hit sqrt sc r rayTmin rayTmax = some rec →
      (∃ s ∈ sc.spheres, candT sqrt s r rayTmin rayTmax = some rec.t ∧
        rec = mkRec s r rec.t) ∧
      (∀ s ∈ sc.spheres, ∀ u, candT sqrt s r rayTmin rayTmax = some u →
        rec.t ≤ u)) ∧
    (∀ (s : Sphere) (tmin' : ℚ) (tmax' : WithTop ℚ),
      Sphere.hit sqrt s r tmin' tmax' =
        (candT sqrt s r tmin' tmax').map (mkRec s r) ∧
      (discOf s r < 0 → Sphere.hit sqrt s r tmin' tmax' = none)) := by
  obtain ⟨hnone, hsome⟩ :=
    sceneHitGo_spec sqrt r rayTmin ha sc.spheres hs rayTmax none
  refine ⟨?_, ?_, ?_⟩
  · rw [Scene.hit, hnone]
    simp
  · intro rec h
    obtain ⟨hdisj, hmin⟩ := hsome rec h
    cases hdisj with
    | inl hA =>
      obtain ⟨s', hm, h1, h2, -⟩ := hA
      exact ⟨⟨s', hm, h1, h2⟩, hmin⟩
    | inr hB =>
      exact absurd hB.1 (by simp)
  · intro s tmin' tmax'
    refine ⟨sphereHit_eq_cand sqrt s r tmin' tmax', fun hd => ?_⟩
    rw [Sphere.hit, if_pos hd]

/-- Concrete scene (two spheres on the axis of the ray) for the C1 witness. -/
def c1scene : Scene :=
  ⟨[⟨⟨0, 0, -4⟩, 1, .lambertian ⟨1/2, 1/2, 1/2⟩⟩,
    ⟨⟨0, 0, -10⟩, 1, .lambertian ⟨1/2, 1/2, 1/2⟩⟩]⟩

/-- Concrete ray for the C1 witness. -/
def c1ray : Ray := ⟨⟨0, 0, 0⟩, ⟨0, 0, -1⟩⟩

/-- Concrete lower bound for the C1 witness. -/
def c1tmin : ℚ := 1/1000

theorem scene_hit_nearest_witness :
    (0 < aOf c1ray) ∧ ((c1tmin : WithTop ℚ) < ⊤) ∧
    (∀ s ∈ c1scene.spheres,
      0 ≤ discOf s c1ray → 0 ≤ ratSqrt (discOf s c1ray)) ∧
    ((Scene.hit ratSqrt c1scene c1ray c1tmin ⊤).map (fun rec => rec.t) =
      some 3) ∧
    ((Scene.hit ratSqrt c1scene c1ray c1tmin ⊤ = none ↔
      ∀ s ∈ c1scene.spheres, candT ratSqrt s c1ray c1tmin ⊤ = none) ∧
    (∀ rec, Scene.hit ratSqrt c1scene c1ray c1tmin ⊤ = some rec →
      (∃ s ∈ c1scene.spheres, candT ratSqrt s c1ray c1tmin ⊤ = some rec.t ∧
        rec = mkRec s c1ray rec.t) ∧
      (∀ s ∈ c1scene.spheres, ∀ u, candT ratSqrt s c1ray c1tmin ⊤ = some u →
        rec.t ≤ u)) ∧
    (∀ (s : Sphere) (tmin' : ℚ) (tmax' : WithTop ℚ),
      Sphere.hit ratSqrt s c1ray tmin' tmax' =
        (candT ratSqrt s c1ray tmin' tmax').map (mkRec s c1ray) ∧
      (discOf s c1ray < 0 → Sphere.hit ratSqrt s c1ray tmin' tmax' = none))) :=
  ⟨by decide, WithTop.coe_lt_top c1tmin, fun s _ _ => ratSqrt_nonneg _, by decide,
    scene_hit_nearest ratSqrt c1scene c1ray c1tmin ⊤ (by decide)
      (WithTop.coe_lt_top c1tmin) (fun s _ _ => ratSqrt_nonneg _)⟩

theorem lengthSquared_nonneg (v : Vec3) : 0 ≤ v.lengthSquared := by
  unfold Vec3.lengthSquared
  nlinarith [mul_self_nonneg v.x, mul_self_nonneg v.y, mul_self_nonneg v.z]

theorem aOf_pos_of_dot_neg {s : Sphere} {r : Ray}
    (h : r.dir.dot (s.center - r.pos) < 0) : 0 < aOf r := by
  rcases eq_or_lt_of_le (lengthSquared_nonneg r.dir) with heq | hlt
  · exfalso
    have h0 : r.dir.x * r.dir.x + r.dir.y * r.dir.y + r.dir.z * r.dir.z = 0 :=
      heq.symm
    have hx : r.dir.x = 0 := by
      nlinarith [mul_self_nonneg r.dir.x, mul_self_nonneg r.dir.y,
        mul_self_nonneg r.dir.z]
    have hy : r.dir.y = 0 := by
      nlinarith [mul_self_nonneg r.dir.x, mul_self_nonneg r.dir.y,
        mul_self_nonneg r.dir.z]
    have hz : r.dir.z = 0 := by
      nlinarith [mul_self_nonneg r.dir.x, mul_self_nonneg r.dir.y,
        mul_self_nonneg r.dir.z]
    rw [Vec3.dot, hx, hy, hz] at h
    norm_num at h
  · exact hlt

/-- C7 (amended): a ray whose origin lies outside a sphere and whose
direction points away from it never reports a hit, for any nonnegative
`tMin` and any `tMax`; but not always through the `discriminant < 0` path:
when the discriminant is nonnegative both quadratic roots are negative and
are rejected by the range test `root <= ray_tmin` instead. -/
theorem sphere_hit_away_none (sqrt : ℚ → ℚ) (s : Sphere) (r : Ray)
    (rayTmin : ℚ) (rayTmax : WithTop ℚ)
    (hout : 0 < cOf s r)
    (haway : r.dir.dot (s.center - r.pos) < 0)
    (htmin : 0 ≤ rayTmin)
    (hsq : 0 ≤ discOf s r →
      0 ≤ sqrt (discOf s r) ∧ sqrt (discOf s r) ^ 2 ≤ discOf s r) :
    Sphere.hit sqrt s r rayTmin rayTmax = none := by
  by_cases hd : discOf s r < 0
  · rw [Sphere.hit, if_pos hd]
  · have hdn : 0 ≤ discOf s r := not_lt.mp hd
    obtain ⟨hsq0, hsq2⟩ := hsq hdn
    have hapos : 0 < aOf r := aOf_pos_of_dot_neg haway
    have hh : hOf s r < 0 := haway
    have hac : 0 < aOf r * cOf s r := mul_pos hapos hout
    have hdisc : discOf s r = hOf s r * hOf s r - aOf r * cOf s r := rfl
    have hprod : 0 < (hOf s r - sqrt (discOf s r)) * (hOf s r + sqrt (discOf s r)) := by
      nlinarith
    have hminus : hOf s r - sqrt (discOf s r) < 0 := by linarith
    have hplus : hOf s r + sqrt (discOf s r) < 0 := by
      by_contra hcon
      push_neg at hcon
      nlinarith
    have hroot1le : root1 sqrt s r ≤ rayTmin := by
      have : root1 sqrt s r < 0 := div_neg_of_neg_of_pos hminus hapos
      linarith
    have hroot2le : root2 sqrt s r ≤ rayTmin := by
      have : root2 sqrt s r < 0 := div_neg_of_neg_of_pos hplus hapos
      linarith
    rw [Sphere.hit, if_neg hd]
    show (if root1 sqrt s r ≤ rayTmin ∨ rayTmax ≤ ((root1 sqrt s r : ℚ) : WithTop ℚ) then
        if root2 sqrt s r ≤ rayTmin ∨ rayTmax ≤ ((root2 sqrt s r : ℚ) : WithTop ℚ) then none
        else some (mkRec s r (root2 sqrt s r))
      else some (mkRec s r (root1 sqrt s r))) = none
    rw [if_pos (Or.inl hroot1le), if_pos (Or.inl hroot2le)]

/-- Concrete sphere for the C7 counterexample and witness: the ray starts
outside it and points directly away from its center. -/
def c7sphere : Sphere := ⟨⟨0, 0, 2⟩, 1, .lambertian ⟨1/2, 1/2, 1/2⟩⟩

/-- Concrete ray for the C7 counterexample and witness. -/
def c7ray : Ray := ⟨⟨0, 0, 0⟩, ⟨0, 0, -1⟩⟩

theorem sphere_hit_away_not_disc_path :
    0 < cOf c7sphere c7ray ∧ c7ray.dir.dot (c7sphere.center - c7ray.pos) < 0 ∧
    (0 : ℚ) ≤ 0 ∧ ¬(discOf c7sphere c7ray < 0) ∧
    Sphere.hit ratSqrt c7sphere c7ray 0 ⊤ = none :=
  ⟨by decide, by decide, le_refl 0, by decide, by decide⟩

theorem sphere_hit_away_none_witness :
    (0 < cOf c7sphere c7ray ∧
      c7ray.dir.dot (c7sphere.center - c7ray.pos) < 0 ∧ (0 : ℚ) ≤ 0 ∧
      (0 ≤ discOf c7sphere c7ray →
        0 ≤ ratSqrt (discOf c7sphere c7ray) ∧
          ratSqrt (discOf c7sphere c7ray) ^ 2 ≤ discOf c7sphere c7ray)) ∧
    Sphere.hit ratSqrt c7sphere c7ray 0 ⊤ = none :=
  ⟨⟨by decide, by decide, le_refl 0, fun _ => by constructor <;> decide⟩,
    sphere_hit_away_none ratSqrt c7sphere c7ray 0 ⊤ (by decide) (by decide)
      (le_refl 0) (fun _ => by constructor <;> decide)⟩

/-- The background gradient of `View::ray_color` (§4.4):
`a = 0.5 * (unit(dir).y + 1)`, `(1 - a) * white + a * (0.5, 0.7, 1.0)`. -/
def backgroundColor (sqrt : ℚ → ℚ) (r : Ray) : Color :=
  let unitDirection := r.dir.unit sqrt
  let a := 1/2 * (unitDirection.y + 1)
  (1 - a) • (⟨1, 1, 1⟩ : Color) + a • (⟨1/2, 7/10, 1⟩ : Color)

/-- `View::ray_color`: recursion on the bounce budget; the shadow-acne
epsilon `0.001` is the lower bound, `f64::INFINITY` is `⊤`. -/
def rayColor (sqrt : ℚ → ℚ) (fuel : Nat) (scene : Scene) :
    Nat → Rng → Ray → Option (Color × Rng)
  | 0, g, _ => some (⟨0, 0, 0⟩, g)
  | d + 1, g, r =>
    match Scene.hit sqrt scene r (1/1000) ⊤ with
    | some rec =>
      match rec.mat.scatter sqrt fuel g r rec with
      | none => none
      | some (none, g1) => some (⟨0, 0, 0⟩, g1)
      | some (some scRec, g1) =>
        match rayColor sqrt fuel scene d g1 scRec.scattered with
        | none => none
        | some (c, g2) => some (scRec.attenuation * c, g2)
    | none => some (backgroundColor sqrt r, g)

/-- C2: `ray_color` returns exactly black at depth 0, and for every ray that
hits nothing in the scene it returns exactly the background gradient for its
direction, unchanged RNG, for every positive depth — the same value
regardless of the depth argument. -/
theorem rayColor_black_and_background (sqrt : ℚ → ℚ) (fuel : Nat)
    (scene : Scene) (g : Rng) (r : Ray) :
    (rayColor sqrt fuel scene 0 g r = some (⟨0, 0, 0⟩, g)) ∧
    (∀ depth, 0 < depth → Scene.hit sqrt scene r (1/1000) ⊤ = none →
      rayColor sqrt fuel scene depth g r = some (backgroundColor sqrt r, g)) := by
  constructor
  · rfl
  · intro depth hd hmiss
    match depth, hd with
    | d + 1, _ =>
      rw [rayColor, hmiss]

/-- Empty scene for the C2 witness. -/
def c2scene : Scene := ⟨[]⟩

/-- Upward-pointing ray for the C2 witness. -/
def c2ray : Ray := ⟨⟨0, 0, 0⟩, ⟨0, 1, 0⟩⟩

theorem rayColor_black_and_background_witness :
    ((0 : Nat) < 1 ∧ Scene.hit ratSqrt c2scene c2ray (1/1000) ⊤ = none) ∧
    (backgroundColor ratSqrt c2ray = ⟨1/2, 7/10, 1⟩) ∧
    rayColor ratSqrt 1 c2scene 0 (Rng.new 3) c2ray = some (⟨0, 0, 0⟩, Rng.new 3) ∧
    rayColor ratSqrt 1 c2scene 1 (Rng.new 3) c2ray =
      some (backgroundColor ratSqrt c2ray, Rng.new 3) :=
  ⟨⟨by norm_num, rfl⟩, by decide,
    (rayColor_black_and_background ratSqrt 1 c2scene (Rng.new 3) c2ray).1,
    (rayColor_black_and_background ratSqrt 1 c2scene (Rng.new 3) c2ray).2 1
      (by norm_num) rfl⟩

/-- One RGBA pixel of the display buffer (the four bytes the worker writes
inside a single `chunks_exact_mut(4)` chunk). -/
structure Pixel where
  r : Nat
  g : Nat
  b : Nat
  a : Nat
deriving DecidableEq, Repr

/-- Saturating `as u8` cast from a (modelled) `f64`: truncate toward zero and
clamp into `[0, 255]`. -/
def f64ToU8 (q : ℚ) : Nat := (min 255 ⌊q⌋).toNat

/-- One display channel: `((c / passes_plus_one).sqrt() * 255.999) as u8`. -/
def gammaByte (sqrt : ℚ → ℚ) (passesPlusOne comp : ℚ) : Nat :=
  f64ToU8 (sqrt (comp / passesPlusOne) * (255999/1000))

/-- `camera.rs`, `struct View`: per-worker strip state.  The accumulation
buffer is carried inside the structure, as in the source; it is a list of
`height` rows of `width` running-sum colors. -/
structure View where
  colorBuf : List (List Color)
  width : Nat
  height : Nat
  maxDepth : Nat
  startRow : Nat
  renderPasses : Nat
  pixel00Loc : Vec3
  pixelDeltaU : Vec3
  pixelDeltaV : Vec3
  center : Vec3
  defocusAngle : ℚ
  defocusDiskU : Vec3
  defocusDiskV : Vec3
deriving DecidableEq, Repr

/-- `View::sample_square`: a random point in `[-0.5, 0.5]²`. -/
def sampleSquare (fuel : Nat) (g : Rng) : Option (Vec3 × Rng) :=
  match g.randomF64 fuel with
  | none => none
  | some (a, g1) =>
    match g1.randomF64 fuel with
    | none => none
    | some (b, g2) => some (⟨a - 1/2, b - 1/2, 0⟩, g2)

/-- `View::defocus_disk_sample`. -/
def View.defocusDiskSample (v : View) (fuel : Nat) (g : Rng) :
    Option (Vec3 × Rng) :=
  match Vec3.randomInUnitDisk fuel g with
  | none => none
  | some (p, g1) =>
    some (v.center + p.x • v.defocusDiskU + p.y • v.defocusDiskV, g1)

/-- `View::get_ray`: jittered camera ray for pixel `(i, j)` of the strip. -/
def View.getRay (v : View) (fuel : Nat) (i j : ℚ) (g : Rng) :
    Option (Ray × Rng) :=
  match sampleSquare fuel g with
  | none => none
  | some (offset, g1) =>
    let pixelSample := v.pixel00Loc + (i + offset.x) • v.pixelDeltaU +
      (j + offset.y) • v.pixelDeltaV
    if v.defocusAngle ≤ 0 then
      some (⟨v.center, pixelSample - v.center⟩, g1)
    else
      match v.defocusDiskSample fuel g1 with
      | none => none
      | some (rayOrigin, g2) => some (⟨rayOrigin, pixelSample - rayOrigin⟩, g2)

/-- The inner per-row loop of `View::render`: walk the row's color cells
zipped with its 4-byte pixel chunks, casting one ray per pixel, adding into
the accumulator cell and writing the normalized RGBA bytes. -/
def renderCols (sqrt : ℚ → ℚ) (fuel : Nat) (scene : Scene) (v : View)
    (passesPlusOne : ℚ) (y : Nat) :
    Nat → List Color → List Pixel → Rng →
    Option (List Color × List Pixel × Rng)
  | _, [], ps, g => some ([], ps, g)
  | _, c :: cs, [], g => some (c :: cs, [], g)
  | x, c :: cs, _p :: ps, g =>
    match v.getRay fuel (x : ℚ) (y : ℚ) g with
    | none => none
    | some (ray, g1) =>
      match rayColor sqrt fuel scene v.maxDepth g1 ray with
      | none => none
      | some (col, g2) =>
        let c' := c + col
        let p' : Pixel :=
          ⟨gammaByte sqrt passesPlusOne c'.r, gammaByte sqrt passesPlusOne c'.g,
            gammaByte sqrt passesPlusOne c'.b, 255⟩
        match renderCols sqrt fuel scene v passesPlusOne y (x + 1) cs ps g2 with
        | none => none
        | some (cs', ps', g') => some (c' :: cs', p' :: ps', g')

/-- The row loop of `View::render`, applied to the rows from `start_row` on
(the `skip(self.start_row)` suffix of both buffers).  `y` is the absolute row
index, `sr` and `rp` are the running `start_row` and `render_passes`, and
`pause y` is the value of the shared pause flag at the single per-row load. -/
def renderRows (sqrt : ℚ → ℚ) (fuel : Nat) (scene : Scene)
    (pause : Nat → Bool) (v : View) (passesPlusOne : ℚ) :
    Nat → Nat → Nat → List (List Color) → List (List Pixel) → Rng →
    Option (Nat × Nat × List (List Color) × List (List Pixel) × Rng)
  | _, sr, rp, [], ps, g => some (sr, rp, [], ps, g)
  | _, sr, rp, cr :: crs, [], g => some (sr, rp, cr :: crs, [], g)
  | y, sr, rp, cr :: crs, pr :: prs, g =>
    match renderCols sqrt fuel scene v passesPlusOne y 0 cr pr g with
    | none => none
    | some (cr', pr', g') =>
      let sr' := sr + 1
      let srp := if v.height ≤ sr' then (0, rp + 1) else (sr', rp)
      if pause y then some (srp.1, srp.2, cr' :: crs, pr' :: prs, g')
      else
        match renderRows sqrt fuel scene pause v passesPlusOne
            (y + 1) srp.1 srp.2 crs prs g' with
        | none => none
        | some (srf, rpf, crsf, prsf, gf) =>
          some (srf, rpf, cr' :: crsf, pr' :: prsf, gf)

/-- `View::render`: no-op when `render_passes >= passes_wanted`; otherwise run
the row loop from `start_row`, then reassemble the untouched row prefixes. -/
def View.render (sqrt : ℚ → ℚ) (fuel : Nat) (pause : Nat → Bool) (v : View)
    (scene : Scene) (pixelBuf : List (List Pixel)) (g : Rng)
    (passesWanted : Nat) : Option (View × List (List Pixel) × Rng) :=
  if passesWanted ≤ v.renderPasses then some (v, pixelBuf, g)
  else
    let passesPlusOne : ℚ := (v.renderPasses : ℚ) + 1
    match renderRows sqrt fuel scene pause v passesPlusOne v.startRow
        v.startRow v.renderPasses (v.colorBuf.drop v.startRow)
        (pixelBuf.drop v.startRow) g with
    | none => none
    | some (sr, rp, crs, prs, g') =>
      some ({ v with
          colorBuf := v.colorBuf.take v.startRow ++ crs
          startRow := sr
          renderPasses := rp },
        pixelBuf.take v.startRow ++ prs, g')

/-- One view worker of `Camera::new`: strip state, private RNG and shared
display buffer. -/
structure Worker where
  view : View
  rng : Rng
  pixelBuf : List (List Pixel)
deriving DecidableEq, Repr

/-- The per-tick work of the worker threads: each worker receives the
broadcast `passes_wanted`, runs `View::render` on its strip, and reports its
resulting `render_passes` (the value it sends through `passes_done_tx`).
`pause i` is worker `i`'s view of the shared pause flag. -/
def runWorkers (sqrt : ℚ → ℚ) (fuel : Nat) (pause : Nat → Nat → Bool)
    (scene : Scene) (passesWanted : Nat) :
    List Worker → Nat → Option (List Worker)
  | [], _ => some []
  | w :: ws, i =>
    match View.render sqrt fuel (pause i) w.view scene w.pixelBuf w.rng
        passesWanted with
    | none => none
    | some (v', pb', g') =>
      match runWorkers sqrt fuel pause scene passesWanted ws (i + 1) with
      | none => none
      | some ws' => some (⟨v', g', pb'⟩ :: ws')

/-- One coordination tick of `Camera::render`: broadcast `passes_wanted`,
collect every worker's reported `render_passes`, and increment
`passes_wanted` exactly when every report is at least the broadcast value.
The sleep, the rendezvous channels and the pause-flag stores are timing
constructs; their effect on the worker is captured by the `pause`
functions. -/
def cameraTick (sqrt : ℚ → ℚ) (fuel : Nat) (pause : Nat → Nat → Bool)
    (scene : Scene) (passesWanted : Nat) (workers : List Worker) :
    Option (Nat × List Worker) :=
  match runWorkers sqrt fuel pause scene passesWanted workers 0 with
  | none => none
  | some ws' =>
    let allPassesDone := ws'.all fun w => passesWanted ≤ w.view.renderPasses
    some (if allPassesDone then passesWanted + 1 else passesWanted, ws')

theorem renderRows_spec (sqrt : ℚ → ℚ) (fuel : Nat) (scene : Scene)
    (pause : Nat → Bool) (v : View) (ppo : ℚ) :
    ∀ (crows : List (List Color)) (prows : List (List Pixel)) (y rp : Nat)
      (g : Rng) (sr' rp' : Nat) (crs' : List (List Color))
      (prs' : List (List Pixel)) (g' : Rng),
      y < v.height →
      crows.length = v.height - y →
      prows.length = v.height - y →
      renderRows sqrt fuel scene pause v ppo y y rp crows prows g =
        some (sr', rp', crs', prs', g') →
      ∃ n, 1 ≤ n ∧ n ≤ v.height - y ∧
        (∀ k, k + 1 < n → pause (y + k) = false) ∧
        (n < v.height - y → pause (y + n - 1) = true) ∧
        (if y + n < v.height then sr' = y + n ∧ rp' = rp
         else sr' = 0 ∧ rp' = rp + 1) ∧
        crs'.length = crows.length ∧ prs'.length = prows.length := by
  intro crows
  induction crows with
  | nil =>
    intro prows y rp g sr' rp' crs' prs' g' hy hcl hpl h
    exact absurd hcl (by simp; omega)
  | cons cr crs ih =>
    intro prows y rp g sr' rp' crs' prs' g' hy hcl hpl h
    match prows with
    | [] => exact absurd hpl (by simp; omega)
    | pr :: prs =>
      simp only [renderRows] at h
      match hcols : renderCols sqrt fuel scene v ppo y 0 cr pr g with
      | none => rw [hcols] at h; exact absurd h (by simp)
      | some (cr', pr', g1) =>
        rw [hcols] at h
        simp only [] at h
        by_cases hp : pause y = true
        · rw [if_pos hp] at h
          by_cases hh : v.height ≤ y + 1
          · rw [if_pos hh] at h
            simp only [Option.some.injEq, Prod.mk.injEq] at h
            obtain ⟨rfl, rfl, rfl, rfl, rfl⟩ := h
            refine ⟨1, le_refl 1, by omega, by omega, fun _ => hp, ?_, by simp, by simp⟩
            rw [if_neg (by omega)]
            exact ⟨rfl, rfl⟩
          · rw [if_neg hh] at h
            simp only [Option.some.injEq, Prod.mk.injEq] at h
            obtain ⟨rfl, rfl, rfl, rfl, rfl⟩ := h
            refine ⟨1, le_refl 1, by omega, by omega, fun _ => hp, ?_, by simp, by simp⟩
            rw [if_pos (by omega)]
            exact ⟨rfl, rfl⟩
        · rw [if_neg hp] at h
          have hpf : pause y = false := Bool.eq_false_iff.mpr hp
          by_cases hh : v.height ≤ y + 1
          · rw [if_pos hh] at h
            have hcrs : crs = [] := by
              have : crs.length = 0 := by
                have := hcl
                simp only [List.length_cons] at this
                omega
              exact List.length_eq_zero.mp this
            have hprs : prs = [] := by
              have : prs.length = 0 := by
                have := hpl
                simp only [List.length_cons] at this
                omega
              exact List.length_eq_zero.mp this
            subst hcrs
            subst hprs
            simp only [renderRows, Option.some.injEq, Prod.mk.injEq] at h
            obtain ⟨rfl, rfl, rfl, rfl, rfl⟩ := h
            refine ⟨1, le_refl 1, by omega, by omega, fun hlt => absurd hlt (by omega), ?_, by simp, by simp⟩
            rw [if_neg (by omega)]
            exact ⟨rfl, rfl⟩
          · rw [if_neg hh] at h
            match hrec : renderRows sqrt fuel scene pause v ppo (y + 1) (y + 1)
                rp crs prs g1 with
            | none => rw [hrec] at h; exact absurd h (by simp)
            | some (srf, rpf, crsf, prsf, gf) =>
              rw [hrec] at h
              simp only [Option.some.injEq, Prod.mk.injEq] at h
              obtain ⟨rfl, rfl, rfl, rfl, rfl⟩ := h
              have hy1 : y + 1 < v.height := by omega
              have hcl1 : crs.length = v.height - (y + 1) := by
                have := hcl
                simp only [List.length_cons] at this
                omega
              have hpl1 : prs.length = v.height - (y + 1) := by
                have := hpl
                simp only [List.length_cons] at this
                omega
              obtain ⟨n0, hn1, hn2, hn3, hn4, hn5, hn6, hn7⟩ :=
                ih prs (y + 1) rp g1 srf rpf crsf prsf gf hy1 hcl1 hpl1 hrec
              refine ⟨n0 + 1, by omega, by omega, ?_, ?_, ?_, by simp [hn6], by simp [hn7]⟩
              · intro k hk
                match k with
                | 0 => simpa using hpf
                | k' + 1 =>
                  have h' := hn3 k' (by omega)
                  rw [show y + (k' + 1) = y + 1 + k' from by omega]
                  exact h'
              · intro hlt
                have h' := hn4 (by omega)
                rw [show y + (n0 + 1) - 1 = y + 1 + n0 - 1 from by omega]
                exact h'
              · rw [show y + (n0 + 1) = y + 1 + n0 from by omega]
                exact hn5

/-- C4: `View::render` iterates rows starting at the stored `start_row`,
leaving the rows before it untouched; each completed row advances `start_row`
by one, completing the last row increments `render_passes` and resets
`start_row` to 0, so `start_row < height` is preserved by every call; the
pause flag is consulted exactly once per completed row (never mid-row), and
stopping early happens only because the flag was set at the last completed
row, leaving `start_row` exactly where the iteration stopped. -/
theorem view_render_row_invariants (sqrt : ℚ → ℚ) (fuel : Nat)
    (pause : Nat → Bool) (v : View) (scene : Scene)
    (pixelBuf : List (List Pixel)) (g : Rng) (wanted : Nat)
    (hh : 0 < v.height) (hsr : v.startRow < v.height)
    (hcl : v.colorBuf.length = v.height) (hpl : pixelBuf.length = v.height) :
    ∀ v' pb' g',
      View.render sqrt fuel pause v scene pixelBuf g wanted =
        some (v', pb', g') →
      (v'.height = v.height ∧ v'.startRow < v'.height) ∧
      (v'.colorBuf.take v.startRow = v.colorBuf.take v.startRow ∧
        pb'.take v.startRow = pixelBuf.take v.startRow) ∧
      (v.renderPasses < wanted →
        ∃ n, 1 ≤ n ∧ n ≤ v.height - v.startRow ∧
          (∀ k, k + 1 < n → pause (v.startRow + k) = false) ∧
          (n < v.height - v.startRow → pause (v.startRow + n - 1) = true) ∧
          (if v.startRow + n < v.height
            then v'.startRow = v.startRow + n ∧
              v'.renderPasses = v.renderPasses
            else v'.startRow = 0 ∧
              v'.renderPasses = v.renderPasses + 1)) := by
  intro v' pb' g' h
  rw [View.render] at h
  by_cases hw : wanted ≤ v.renderPasses
  · rw [if_pos hw] at h
    simp only [Option.some.injEq, Prod.mk.injEq] at h
    obtain ⟨rfl, rfl, rfl⟩ := h
    exact ⟨⟨rfl, hsr⟩, ⟨rfl, rfl⟩, fun hlt => absurd hw (by omega)⟩
  · rw [if_neg hw] at h
    match hrr : renderRows sqrt fuel scene pause v ((v.renderPasses : ℚ) + 1)
        v.startRow v.startRow v.renderPasses (v.colorBuf.drop v.startRow)
        (pixelBuf.drop v.startRow) g with
    | none =>
      simp only [hrr] at h
      exact absurd h (by simp)
    | some (sr, rp, crs, prs, g1) =>
      simp only [hrr] at h
      simp only [Option.some.injEq, Prod.mk.injEq] at h
      obtain ⟨rfl, rfl, rfl⟩ := h
      have hcl' : (v.colorBuf.drop v.startRow).length = v.height - v.startRow := by
        rw [List.length_drop, hcl]
      have hpl' : (pixelBuf.drop v.startRow).length = v.height - v.startRow := by
        rw [List.length_drop, hpl]
      obtain ⟨n, hn1, hn2, hn3, hn4, hn5, -, -⟩ :=
        renderRows_spec sqrt fuel scene pause v ((v.renderPasses : ℚ) + 1)
          (v.colorBuf.drop v.startRow) (pixelBuf.drop v.startRow) v.startRow
          v.renderPasses g sr rp crs prs g1 hsr hcl' hpl' hrr
      have htake : (v.colorBuf.take v.startRow).length = v.startRow := by
        rw [List.length_take]
        omega
      have htakep : (pixelBuf.take v.startRow).length = v.startRow := by
        rw [List.length_take]
        omega
      refine ⟨⟨rfl, ?_⟩, ⟨?_, ?_⟩, fun _ => ⟨n, hn1, hn2, hn3, hn4, ?_⟩⟩
      · show sr < v.height
        by_cases hc : v.startRow + n < v.height
        · rw [if_pos hc] at hn5
          omega
        · rw [if_neg hc] at hn5
          omega
      · show (v.colorBuf.take v.startRow ++ crs).take v.startRow =
          v.colorBuf.take v.startRow
        exact List.take_left' htake
      · show (pixelBuf.take v.startRow ++ prs).take v.startRow =
          pixelBuf.take v.startRow
        exact List.take_left' htakep
      · exact hn5

/-- C5 (amended): on a request `passes wanted = N` with `N` above the current
`render_passes`, a never-paused worker completes exactly the remainder of the
current pass: one call of `View::render` increments `render_passes` by
exactly one and resets `start_row` to 0, so the worker reaches
`render_passes ≥ N` before reporting precisely when `N` equals
`render_passes + 1` — which is the only request the coordinator protocol
issues, since `passes_wanted` grows by at most one per tick and only after
all workers reported reaching it. -/
theorem view_render_advances_one_pass (sqrt : ℚ → ℚ) (fuel : Nat)
    (pause : Nat → Bool) (v : View) (scene : Scene)
    (pixelBuf : List (List Pixel)) (g : Rng) (wanted : Nat)
    (_hh : 0 < v.height) (hsr : v.startRow < v.height)
    (hcl : v.colorBuf.length = v.height) (hpl : pixelBuf.length = v.height)
    (hw : v.renderPasses < wanted) (hnp : ∀ k, pause k = false) :
    ∀ v' pb' g',
      View.render sqrt fuel pause v scene pixelBuf g wanted =
        some (v', pb', g') →
      v'.renderPasses = v.renderPasses + 1 ∧ v'.startRow = 0 ∧
      (wanted ≤ v'.renderPasses ↔ wanted = v.renderPasses + 1) := by
  intro v' pb' g' h
  rw [View.render] at h
  rw [if_neg (by omega)] at h
  match hrr : renderRows sqrt fuel scene pause v ((v.renderPasses : ℚ) + 1)
      v.startRow v.startRow v.renderPasses (v.colorBuf.drop v.startRow)
      (pixelBuf.drop v.startRow) g with
  | none =>
    simp only [hrr] at h
    exact absurd h (by simp)
  | some (sr, rp, crs, prs, g1) =>
    simp only [hrr] at h
    simp only [Option.some.injEq, Prod.mk.injEq] at h
    obtain ⟨rfl, rfl, rfl⟩ := h
    have hcl' : (v.colorBuf.drop v.startRow).length = v.height - v.startRow := by
      rw [List.length_drop, hcl]
    have hpl' : (pixelBuf.drop v.startRow).length = v.height - v.startRow := by
      rw [List.length_drop, hpl]
    obtain ⟨n, hn1, hn2, hn3, hn4, hn5, -, -⟩ :=
      renderRows_spec sqrt fuel scene pause v ((v.renderPasses : ℚ) + 1)
        (v.colorBuf.drop v.startRow) (pixelBuf.drop v.startRow) v.startRow
        v.renderPasses g sr rp crs prs g1 hsr hcl' hpl' hrr
    have hfull : n = v.height - v.startRow := by
      by_contra hne
      have hlt : n < v.height - v.startRow := by omega
      exact absurd (hn4 hlt) (by simp [hnp])
    have hnotlt : ¬(v.startRow + n < v.height) := by omega
    rw [if_neg hnotlt] at hn5
    refine ⟨hn5.2, hn5.1, ?_⟩
    show wanted ≤ rp ↔ wanted = v.renderPasses + 1
    rw [hn5.2]
    omega

/-- Strip state used by the worker-level witnesses: a 1×1 strip with bounce
budget 0 (so the per-pixel work is pure arithmetic). -/
def tinyView : View :=
  { colorBuf := [[⟨0, 0, 0⟩]], width := 1, height := 1, maxDepth := 0,
    startRow := 0, renderPasses := 0, pixel00Loc := ⟨0, 0, 0⟩,
    pixelDeltaU := ⟨0, 0, 0⟩, pixelDeltaV := ⟨0, 0, 0⟩, center := ⟨0, 0, 0⟩,
    defocusAngle := 0, defocusDiskU := ⟨0, 0, 0⟩, defocusDiskV := ⟨0, 0, 0⟩ }

/-- Empty scene shared by the worker-level witnesses. -/
def emptyScene : Scene := ⟨[]⟩

/-- Display buffer of the 1×1 strip before rendering. -/
def tinyPixelBuf : List (List Pixel) := [[⟨0, 0, 0, 0⟩]]

/-- Concrete output of one never-paused `View::render` call with
`passes_wanted = 2` (C5 counterexample input). -/
def c5out : View × List (List Pixel) × Rng :=
  (View.render ratSqrt 1 (fun _ => false) tinyView emptyScene tinyPixelBuf
    (Rng.new 1) 2).getD (tinyView, [], Rng.new 1)

theorem view_render_not_until_wanted :
    ¬ (∀ (sqrt : ℚ → ℚ) (fuel : Nat) (pause : Nat → Bool) (v : View)
        (scene : Scene) (pixelBuf : List (List Pixel)) (g : Rng) (wanted : Nat)
        (v' : View) (pb' : List (List Pixel)) (g' : Rng),
        0 < v.height → v.startRow < v.height →
        v.colorBuf.length = v.height → pixelBuf.length = v.height →
        v.renderPasses < wanted → (∀ k, pause k = false) →
        View.render sqrt fuel pause v scene pixelBuf g wanted =
          some (v', pb', g') →
        wanted ≤ v'.renderPasses) := by
  intro hclaim
  have h := hclaim ratSqrt 1 (fun _ => false) tinyView emptyScene tinyPixelBuf
    (Rng.new 1) 2 c5out.1 c5out.2.1 c5out.2.2 (by decide) (by decide)
    (by decide) (by decide) (by decide) (fun _ => rfl) (by decide)
  exact absurd h (by decide)


/-- Concrete output of one never-paused `View::render` call with
`passes_wanted = 1` (C4 and C5 witness input). -/
def c5wOut : View × List (List Pixel) × Rng :=
  (View.render ratSqrt 1 (fun _ => false) tinyView emptyScene tinyPixelBuf
    (Rng.new 1) 1).getD (tinyView, [], Rng.new 1)

theorem view_render_advances_one_pass_witness :
    ((0 : Nat) < tinyView.height ∧ tinyView.startRow < tinyView.height ∧
      tinyView.colorBuf.length = tinyView.height ∧
      tinyPixelBuf.length = tinyView.height ∧ tinyView.renderPasses < 1 ∧
      View.render ratSqrt 1 (fun _ => false) tinyView emptyScene tinyPixelBuf
        (Rng.new 1) 1 = some (c5wOut.1, c5wOut.2.1, c5wOut.2.2)) ∧
    (c5wOut.1.renderPasses = tinyView.renderPasses + 1 ∧
      c5wOut.1.startRow = 0 ∧
      (1 ≤ c5wOut.1.renderPasses ↔ 1 = tinyView.renderPasses + 1)) :=
  ⟨⟨by decide, by decide, by decide, by decide, by decide, by decide⟩,
    view_render_advances_one_pass ratSqrt 1 (fun _ => false) tinyView
      emptyScene tinyPixelBuf (Rng.new 1) 1 (by decide) (by decide) (by decide)
      (by decide) (by decide) (fun _ => rfl) c5wOut.1 c5wOut.2.1 c5wOut.2.2
      (by decide)⟩


/-- Concrete output of `View::render` with `passes_wanted = 1` used by the C4
witness (never paused, one-row strip: the call completes the pass). -/
def c4out : View × List (List Pixel) × Rng :=
  (View.render ratSqrt 1 (fun _ => false) tinyView emptyScene tinyPixelBuf
    (Rng.new 1) 1).getD (tinyView, [], Rng.new 1)

theorem view_render_row_invariants_witness :
    ((0 : Nat) < tinyView.height ∧ tinyView.startRow < tinyView.height ∧
      tinyView.colorBuf.length = tinyView.height ∧
      tinyPixelBuf.length = tinyView.height ∧
      View.render ratSqrt 1 (fun _ => false) tinyView emptyScene tinyPixelBuf
        (Rng.new 1) 1 = some (c4out.1, c4out.2.1, c4out.2.2)) ∧
    ((c4out.1.height = tinyView.height ∧
        c4out.1.startRow < c4out.1.height) ∧
      (c4out.1.colorBuf.take tinyView.startRow =
          tinyView.colorBuf.take tinyView.startRow ∧
        c4out.2.1.take tinyView.startRow =
          tinyPixelBuf.take tinyView.startRow) ∧
      (tinyView.renderPasses < 1 →
        ∃ n, 1 ≤ n ∧ n ≤ tinyView.height - tinyView.startRow ∧
          (∀ k, k + 1 < n → (fun _ => false) (tinyView.startRow + k) = false) ∧
          (n < tinyView.height - tinyView.startRow →
            (fun _ => false) (tinyView.startRow + n - 1) = true) ∧
          (if tinyView.startRow + n < tinyView.height
            then c4out.1.startRow = tinyView.startRow + n ∧
              c4out.1.renderPasses = tinyView.renderPasses
            else c4out.1.startRow = 0 ∧
              c4out.1.renderPasses = tinyView.renderPasses + 1))) :=
  ⟨⟨by decide, by decide, by decide, by decide, by decide⟩,
    view_render_row_invariants ratSqrt 1 (fun _ => false) tinyView emptyScene
      tinyPixelBuf (Rng.new 1) 1 (by decide) (by decide) (by decide)
      (by decide) c4out.1 c4out.2.1 c4out.2.2 (by decide)⟩

/-- C10: when `render_passes ≥ passes_wanted` at entry, `View::render` is a
complete no-op: it returns immediately with the accumulation buffer, the
`start_row` cursor, the `render_passes` counter, the RNG state and every
pixel of the display buffer unchanged. -/
theorem view_render_noop (sqrt : ℚ → ℚ) (fuel : Nat) (pause : Nat → Bool)
    (v : View) (scene : Scene) (pixelBuf : List (List Pixel)) (g : Rng)
    (wanted : Nat) (hw : wanted ≤ v.renderPasses) :
    View.render sqrt fuel pause v scene pixelBuf g wanted =
      some (v, pixelBuf, g) := by
  rw [View.render, if_pos hw]

theorem view_render_noop_witness :
    (0 : Nat) ≤ tinyView.renderPasses ∧
    View.render ratSqrt 1 (fun _ => false) tinyView emptyScene tinyPixelBuf
      (Rng.new 1) 0 = some (tinyView, tinyPixelBuf, Rng.new 1) :=
  ⟨Nat.zero_le _,
    view_render_noop ratSqrt 1 (fun _ => false) tinyView emptyScene
      tinyPixelBuf (Rng.new 1) 0 (Nat.zero_le _)⟩

/-- C3: in each coordination tick, `Camera::render` increments
`passes_wanted` — by exactly one — precisely when every worker's reported
`render_passes` is at least the `passes_wanted` value broadcast at the start
of the tick, and leaves it unchanged otherwise. -/
theorem cameraTick_increments_iff (sqrt : ℚ → ℚ) (fuel : Nat)
    (pause : Nat → Nat → Bool) (scene : Scene) (wanted : Nat)
    (workers : List Worker) :
    ∀ wanted' ws',
      cameraTick sqrt fuel pause scene wanted workers = some (wanted', ws') →
      (wanted' = wanted + 1 ∨ wanted' = wanted) ∧
      (wanted' = wanted + 1 ↔ ∀ w ∈ ws', wanted ≤ w.view.renderPasses) := by
  intro wanted' ws' h
  rw [cameraTick] at h
  match hrw : runWorkers sqrt fuel pause scene wanted workers 0 with
  | none =>
    rw [hrw] at h
    exact absurd h (by simp)
  | some ws0 =>
    rw [hrw] at h
    simp only [Option.some.injEq, Prod.mk.injEq] at h
    obtain ⟨hw', rfl⟩ := h
    by_cases hall : ws0.all (fun w => decide (wanted ≤ w.view.renderPasses)) = true
    · rw [if_pos hall] at hw'
      subst hw'
      refine ⟨Or.inl rfl, ⟨fun _ => ?_, fun _ => rfl⟩⟩
      intro w hw
      have := List.all_eq_true.mp hall w hw
      exact of_decide_eq_true this
    · rw [if_neg hall] at hw'
      subst hw'
      refine ⟨Or.inr rfl, ⟨fun hcon => absurd hcon (by omega), fun hcon => ?_⟩⟩
      exfalso
      apply hall
      rw [List.all_eq_true]
      intro w hw
      exact decide_eq_true (hcon w hw)

/-- Single worker used by the C3 witness. -/
def c3worker : Worker := ⟨tinyView, Rng.new 1, tinyPixelBuf⟩

/-- Concrete output of one coordination tick for the C3 witness. -/
def c3out : Nat × List Worker :=
  (cameraTick ratSqrt 1 (fun _ _ => false) emptyScene 0 [c3worker]).getD (0, [])

theorem cameraTick_increments_iff_witness :
    cameraTick ratSqrt 1 (fun _ _ => false) emptyScene 0 [c3worker] =
      some (c3out.1, c3out.2) ∧ c3out.1 = 1 ∧
    ((c3out.1 = 0 + 1 ∨ c3out.1 = 0) ∧
      (c3out.1 = 0 + 1 ↔ ∀ w ∈ c3out.2, 0 ≤ w.view.renderPasses)) :=
  ⟨by decide, by decide,
    cameraTick_increments_iff ratSqrt 1 (fun _ _ => false) emptyScene 0
      [c3worker] c3out.1 c3out.2 (by decide)⟩
